import Mathlib

/-
Verification development for the pb-toolkit extraction pipeline
(extract_aicodebase.py). Texts are modelled as lists of characters
(type Str), faithfully mirroring the Python string operations used by
the source: str.split, str.join, str.strip, str.lower, and the concrete
regular expressions of the file, which are transcribed as executable
character-level matchers with Python re.match backtracking semantics.
All inputs are modelled at the code point level; the ASCII case fold of
str.lower is used, which agrees with Python on the ASCII inputs the
matchers inspect.
-/

abbrev Str := List Char

/-- Whitespace class of the regular expression escape backslash-s and of
Python str.strip with no argument, restricted to ASCII. -/
def isSpc (c : Char) : Bool :=
  c = ' ' || c = '\t' || c = '\n' || c = '\r' || c = '\x0b' || c = '\x0c'

/-- ASCII lower casing of one character, as Python str.lower on ASCII. -/
def lowC (c : Char) : Char :=
  if 65 ≤ c.toNat ∧ c.toNat ≤ 90 then Char.ofNat (c.toNat + 32) else c

/-- Python str.lower (ASCII fragment). -/
def pyLower (s : Str) : Str := s.map lowC

/-- Word character class of the regular expression escape backslash-w
(ASCII fragment). -/
def isWordC (c : Char) : Bool :=
  (48 ≤ c.toNat && c.toNat ≤ 57) || (65 ≤ c.toNat && c.toNat ≤ 90) ||
    (97 ≤ c.toNat && c.toNat ≤ 122) || c = '_'

/-- First character class of an identifier token, the character class
open-bracket A-Za-z underscore close-bracket of the token pattern in
normalize_member_name. -/
def isIdentStartC (c : Char) : Bool :=
  (65 ≤ c.toNat && c.toNat ≤ 90) || (97 ≤ c.toNat && c.toNat ≤ 122) || c = '_'

/-- Python content.split applied with separator a single newline:
always returns at least one (possibly empty) piece. -/
def pySplitLines : Str → List Str
  | [] => [[]]
  | c :: cs =>
    let r := pySplitLines cs
    if c = '\n' then [] :: r
    else
      match r with
      | [] => [[c]]
      | l :: ls => (c :: l) :: ls

/-- Python newline.join. -/
def pyJoinNl : List Str → Str
  | [] => []
  | [l] => l
  | l :: ls => l ++ '\n' :: pyJoinNl ls

/-- Removes trailing whitespace, as Python str.rstrip. -/
def rstripWs (s : Str) : Str := (s.reverse.dropWhile isSpc).reverse

/-- Python str.strip with no argument (whitespace on both ends). -/
def pyStrip (s : Str) : Str := rstripWs (s.dropWhile isSpc)

/-- True when every character of the line is whitespace; this is the
Python test line.strip() == the empty string. -/
def allWs (s : Str) : Bool := s.all isSpc

/-- Case-insensitive literal prefix match: returns the remainder of the
input after the keyword, or none.  This is the semantics of a literal
alternative inside an IGNORECASE pattern under re.match, restricted to
ASCII keywords. -/
def ciPref : Str → Str → Option Str
  | [], s => some s
  | _ :: _, [] => none
  | k :: ks, c :: cs => if lowC c = lowC k then ciPref ks cs else none

/-- The three member kind keywords of MEMBER_START_RE and MEMBER_END_RE. -/
def kindsList : List Str := ["function".data, "subroutine".data, "event".data]

/-- The visibility modifiers accepted by MEMBER_START_RE. -/
def modsList : List Str := ["public".data, "private".data, "protected".data]

/-- The modifiers accepted by the fallback extractor start pattern,
which additionally permits the word global. -/
def modsFallbackList : List Str :=
  ["global".data, "public".data, "private".data, "protected".data]

/-- Matches the tail of MEMBER_START_RE after the kind keyword: one or
more whitespace characters, then a lazily captured non-empty group that
must be followed only by whitespace up to end of line.  Returns the
captured group (before the final str.strip applied by the caller), or
none when the pattern cannot match.  Mirrors the backtracking of the
fragment backslash-s plus, dot plus lazy, backslash-s star, dollar. -/
def startSigAfterKind (r : Str) : Option Str :=
  let w := r.takeWhile isSpc
  let t := r.dropWhile isSpc
  if w = [] then none
  else if t ≠ [] then some (rstripWs t)
  else if 2 ≤ w.length then
    match w.getLast? with
    | some c => some [c]
    | none => none
  else none

/-- Tries the kind alternatives of the member start pattern in order,
committing to an alternative only when the whole remaining pattern
matches (regex alternation backtracking). -/
def tryKindsGo : List Str → Str → Option (Str × Str)
  | [], _ => none
  | k :: ks, r =>
    match ciPref k r with
    | some rest =>
      match startSigAfterKind rest with
      | some g => some (k, g)
      | none => tryKindsGo ks r
    | none => tryKindsGo ks r

/-- Tries the modifier alternatives in order, returning the remainder
after the first one that literally matches. -/
def tryModsGo : List Str → Str → Option Str
  | [], _ => none
  | m :: ms, r =>
    match ciPref m r with
    | some rest => some rest
    | none => tryModsGo ms r

/-- MEMBER_START_RE under re.match: optional leading whitespace, an
optional visibility modifier, whitespace, a kind keyword, whitespace,
and a non-empty signature.  Returns the kind (lower case) and the raw
captured signature group.  When a modifier literally matches but the
rest of the pattern fails after it, the regex engine retries with the
empty modifier alternative; that retry is reproduced here. -/
def lineMemberStart (l : Str) : Option (Str × Str) :=
  let l1 := l.dropWhile isSpc
  let withMod :=
    match tryModsGo modsList l1 with
    | some rest => tryKindsGo kindsList (rest.dropWhile isSpc)
    | none => none
  match withMod with
  | some kg => some kg
  | none => tryKindsGo kindsList l1

/-- Shared matcher for the end patterns: optional leading whitespace,
the word end, whitespace, one of the given kind keywords, and a word
boundary.  Returns the matched kind. -/
def lineEndKinds (kinds : List Str) (l : Str) : Option Str :=
  let l1 := l.dropWhile isSpc
  match ciPref "end".data l1 with
  | none => none
  | some r =>
    let w := r.takeWhile isSpc
    let t := r.dropWhile isSpc
    if w = [] then none else endKindsGo kinds t
where
  endKindsGo : List Str → Str → Option Str
    | [], _ => none
    | k :: ks, t =>
      match ciPref k t with
      | some rest =>
        (match rest with
         | [] => some k
         | c :: _ => if isWordC c then endKindsGo ks t else some k)
      | none => endKindsGo ks t

/-- MEMBER_END_RE and END_ANY_RE (they are the same pattern). -/
def lineMemberEnd (l : Str) : Option Str := lineEndKinds kindsList l

/-- The closing-line pattern of strip_member_wrappers, with the kind
fixed to the given keyword. -/
def endKindLine (kind : Str) (l : Str) : Bool :=
  (lineEndKinds [kind] l).isSome

/-- Checks the fragment kind keyword, whitespace, non-empty signature of
the fallback start pattern. -/
def kindSigCheck (kind : Str) (r : Str) : Bool :=
  match ciPref kind r with
  | some rest => (startSigAfterKind rest).isSome
  | none => false

/-- The start pattern of extract_single_member_body_if_any: like the
member start pattern but with the kind fixed and the extra modifier
global permitted. -/
def fallbackStartLine (kind : Str) (l : Str) : Bool :=
  let l1 := l.dropWhile isSpc
  (match tryModsGo modsFallbackList l1 with
   | some rest => kindSigCheck kind (rest.dropWhile isSpc)
   | none => false)
  || kindSigCheck kind l1

/-- re.findall of the identifier token pattern, as used by
normalize_member_name: maximal word-character runs starting with a
letter or underscore, scanned left to right without overlap.  The
second argument accumulates the current token reversed. -/
def findIdentsAux : Str → Option Str → List Str
  | [], none => []
  | [], some t => [t.reverse]
  | c :: cs, none =>
    if isIdentStartC c then findIdentsAux cs (some [c]) else findIdentsAux cs none
  | c :: cs, some t =>
    if isWordC c then findIdentsAux cs (some (c :: t))
    else t.reverse :: findIdentsAux cs none

def findIdents (s : Str) : List Str := findIdentsAux s none

/-- Characters replaced by an underscore in sanitize. -/
def badFsC (c : Char) : Bool :=
  c = '<' || c = '>' || c = ':' || c = '\"' || c = '/' || c = '\\' ||
    c = '|' || c = '?' || c = '*'

/-- Replaces each maximal run of characters satisfying p by a single
replacement character (the two run-collapsing re.sub calls of
sanitize). -/
def collapseGo (p : Char → Bool) (r : Char) (inRun : Bool) : Str → Str
  | [] => []
  | c :: cs =>
    if p c then
      if inRun then collapseGo p r true cs else r :: collapseGo p r true cs
    else c :: collapseGo p r false cs

/-- Python str.strip with the single argument underscore. -/
def stripUnders (s : Str) : Str :=
  ((s.dropWhile (· = '_')).reverse.dropWhile (· = '_')).reverse

/-- sanitize from the source: strip, replace filesystem-hostile
characters by underscores, collapse whitespace runs to one underscore,
collapse underscore runs, strip underscores. -/
def sanitize (name : Str) : Str :=
  let n := pyStrip name
  let n := n.map (fun c => if badFsC c then '_' else c)
  let n := collapseGo isSpc '_' false n
  let n := collapseGo (· = '_') '_' false n
  stripUnders n

/-- normalize_member_name from the source: for kind function the second
identifier token of the signature names the member (the first when only
one exists), otherwise the first token; with no token the word unknown
is used; the result is kind underscore name, sanitized. -/
def normalize_member_name (kind : Str) (signature : Str) : Str :=
  let tokens := findIdents signature
  let kind_l := pyLower kind
  let name :=
    if kind_l = "function".data then
      match tokens with
      | _ :: t :: _ => t
      | [t] => t
      | [] => "unknown".data
    else
      match tokens with
      | t :: _ => t
      | [] => "unknown".data
  sanitize (kind_l ++ '_' :: name)

/-- infer_kind_from_filename from the source. -/
def infer_kind_from_filename (fname : Str) : Str :=
  let f := pyLower fname
  if "function_".data.isPrefixOf f then "function".data
  else if "event_".data.isPrefixOf f then "event".data
  else "subroutine".data

/-- The scanning loop of split_object_members.  Arguments mirror the
Python locals: remaining lines, the in-member flag, the open member
kind and (already stripped) signature, the member buffer, the pre
buffer, the header lines, and the flushed members (kind, signature,
buffered lines including both wrapper lines). -/
def splitGo : List Str → Bool → Str → Str → List Str → List Str → List Str →
    List (Str × Str × List Str) → List Str × List (Str × Str × List Str)
  | [], inM, k, s, buf, pre, hdr, mems =>
    let mems := if inM ∧ buf ≠ [] then mems ++ [(k, s, buf)] else mems
    (hdr ++ pre, mems)
  | line :: rest, inM, k, s, buf, pre, hdr, mems =>
    if inM then
      let buf := buf ++ [line]
      if (lineMemberEnd line).isSome then
        splitGo rest false [] [] [] pre hdr (mems ++ [(k, s, buf)])
      else
        splitGo rest true k s buf pre hdr mems
    else
      match lineMemberStart line with
      | some (kind, sigRaw) =>
        splitGo rest true kind (pyStrip sigRaw) [line] [] (hdr ++ pre) mems
      | none =>
        splitGo rest false k s buf (pre ++ [line]) hdr mems

/-- Renders a flushed member exactly as flush_member does: file name
from normalize_member_name plus the txt suffix, text from joining the
buffer, stripping surrounding whitespace and appending one newline. -/
def renderMember (m : Str × Str × List Str) : Str × Str :=
  (normalize_member_name m.1 m.2.1 ++ ".txt".data,
    pyStrip (pyJoinNl m.2.2) ++ ['\n'])

/-- split_object_members from the source: returns the header text and
the ordered member list (file name, member text with wrappers). -/
def split_object_members (content : Str) : Str × List (Str × Str) :=
  let st := splitGo (pySplitLines content) false [] [] [] [] [] []
  let header := pyStrip (pyJoinNl st.1)
  let header := if header = [] then header else header ++ ['\n']
  (header, st.2.map renderMember)

/-- The interleaved segment view of the same scan: a header line or one
flushed member buffer, in original file order. -/
inductive Seg where
  | hdr (l : Str)
  | mem (buf : List Str)
deriving DecidableEq

/-- The lines a segment stands for. -/
def segLines : Seg → List Str
  | .hdr l => [l]
  | .mem b => b

/-- The scanning loop again, recorded as interleaved segments. -/
def splitSegGo : List Str → Bool → List Str → List Seg
  | [], inM, buf => if inM ∧ buf ≠ [] then [Seg.mem buf] else []
  | line :: rest, inM, buf =>
    if inM then
      let buf := buf ++ [line]
      if (lineMemberEnd line).isSome then
        Seg.mem buf :: splitSegGo rest false []
      else
        splitSegGo rest true buf
    else
      match lineMemberStart line with
      | some _ => splitSegGo rest true [line]
      | none => Seg.hdr line :: splitSegGo rest false buf

/-- The interleaved segments of one object text. -/
def splitSegs (content : Str) : List Seg :=
  splitSegGo (pySplitLines content) false []

/-- Header lines read off the segment view. -/
def hdrsOf (segs : List Seg) : List Str :=
  segs.flatMap (fun s => match s with | .hdr l => [l] | .mem _ => [])

/-- Member buffers read off the segment view. -/
def memsOf (segs : List Seg) : List (List Str) :=
  segs.flatMap (fun s => match s with | .hdr _ => [] | .mem b => [b])

/-- The while loop popping trailing blank lines in
strip_member_wrappers. -/
def popTrailBlanks : List Str → List Str
  | [] => []
  | l :: ls =>
    match popTrailBlanks ls with
    | [] => if allWs l then [] else [l]
    | r => l :: r

/-- strip_member_wrappers from the source: drop the first line, pop
trailing blank lines, pop one closing end-kind line when the last line
matches, pop trailing blank lines again, and re-join with a final
newline when any line remains. -/
def strip_member_wrappers (member_text : Str) (kind : Str) : Str :=
  let lines := pySplitLines member_text
  let lines := lines.drop 1
  let lines := popTrailBlanks lines
  let lines :=
    match lines.getLast? with
    | some l => if endKindLine kind l then lines.dropLast else lines
    | none => lines
  let lines := popTrailBlanks lines
  pyJoinNl lines ++ (if lines = [] then [] else ['\n'])

/-- Backward scan for the last line matching the end pattern, as the
descending index loop of extract_single_member_body_if_any: returns the
index of the last matching line together with the matched kind. -/
def lastEndInfo : List Str → Option (Nat × Str)
  | [] => none
  | l :: ls =>
    match lastEndInfo ls with
    | some (i, k) => some (i + 1, k)
    | none =>
      match lineMemberEnd l with
      | some k => some (0, k)
      | none => none

/-- Backward scan for the nearest start line of the given kind below the
closer: returns the greatest index in the list whose line matches the
fallback start pattern. -/
def lastStartIdx (kind : Str) : List Str → Option Nat
  | [] => none
  | l :: ls =>
    match lastStartIdx kind ls with
    | some i => some (i + 1)
    | none => if fallbackStartLine kind l then some 0 else none

/-- extract_single_member_body_if_any from the source: find the last
end line, find the nearest matching start line above it, and return the
joined block interior stripped of surrounding whitespace, with a
trailing newline when non-empty. -/
def extract_single_member_body_if_any (content : Str) : Option Str :=
  let lines := pySplitLines content
  match lastEndInfo lines with
  | none => none
  | some (endIdx, kind) =>
    match lastStartIdx kind (lines.take endIdx) with
    | none => none
    | some startIdx =>
      let block := (lines.drop startIdx).take (endIdx + 1 - startIdx)
      if block.length < 2 then none
      else
        let body := pyStrip (pyJoinNl ((block.drop 1).dropLast))
        some (body ++ (if body = [] then [] else ['\n']))

/-
Filesystem model for the per-object step of build_cache_for_pbl.  One
object cache directory is an association list from file name to file
content; obj_dir.mkdir(exist_ok true) preserves whatever the directory
already holds, so the previous run contents are the starting state.
-/

abbrev FsDir := List (Str × Str)

/-- Path.write_text: overwrites the entry when the name exists,
otherwise appends it. -/
def fsWrite (d : FsDir) (name content : Str) : FsDir :=
  if d.any (fun e => e.1 = name) then
    d.map (fun e => if e.1 = name then (name, content) else e)
  else d ++ [(name, content)]

/-- Path.unlink with missing_ok: drops the entry when present. -/
def fsRemove (d : FsDir) (name : Str) : FsDir :=
  d.filter (fun e => e.1 ≠ name)

/-- Whether a name exists in the directory (Path.exists). -/
def fsHas (d : FsDir) (name : Str) : Bool :=
  d.any (fun e => e.1 = name)

/-- Comparison used by sorted with key str.lower on the member file
names: true when a precedes or equals b in the case-folded code point
order (Python string comparison is code point lexicographic). -/
def lexLe : Str → Str → Bool
  | [], _ => true
  | _ :: _, [] => false
  | a :: as, b :: bs =>
    if a.toNat < b.toNat then true
    else if b.toNat < a.toNat then false
    else lexLe as bs

/-- Stable insertion of one element into a sorted list, placing it
before later elements with an equal key, as Python stable sorting
orders equal keys by first appearance. -/
def pyInsert (le : α → α → Bool) (a : α) : List α → List α
  | [] => [a]
  | b :: bs => if le a b then a :: b :: bs else b :: pyInsert le a bs

/-- Stable sort (Python sorted): earlier elements are inserted in front
of later elements that compare equal. -/
def pySorted (le : α → α → Bool) : List α → List α
  | [] => []
  | a :: as => pyInsert le a (pySorted le as)

/-- The per-object body of the loop in build_cache_for_pbl, acting on
the object cache directory state: write the header artifact; with no
members write the fallback artifact object.txt (recovered body when
available, else the verbatim text); with members write each stripped
member artifact in name order and then unlink a stale object.txt.
The source performs these writes and removals and nothing else for one
object. -/
def buildObjectCache (prev : FsDir) (content : Str) : FsDir :=
  let st := split_object_members content
  let d := fsWrite prev "_object.txt".data st.1
  if st.2 = [] then
    match extract_single_member_body_if_any content with
    | some cleaned => fsWrite d "object.txt".data cleaned
    | none => fsWrite d "object.txt".data content
  else
    let sortedMems := pySorted (fun a b => lexLe (pyLower a.1) (pyLower b.1)) st.2
    let d := sortedMems.foldl
      (fun acc m =>
        let kind := infer_kind_from_filename m.1
        fsWrite acc m.1 (strip_member_wrappers m.2 kind)) d
    fsRemove d "object.txt".data

/-- Member artifact names are the names other than the header artifact
and the fallback artifact. -/
def isMemberArtifact (name : Str) : Bool :=
  name ≠ "_object.txt".data ∧ name ≠ "object.txt".data

/-
Exit status model of main.  The world records, for each version
identifier, whether the mirror and sources directories of that version
exist; the three root paths themselves are never tested by main, so an
absent root simply makes every per-version existence test false.  Every
statement of main after the argument count check performs filesystem
work, appends warnings, or both; none of them contains a return, so the
returned status cannot depend on them.  The model keeps the two
explicit per-version skip branches and elides the cache build and
assembly effects, which return nothing.
-/

structure MainWorld where
  mirrorVersionExists : Str → Bool
  sourcesVersionExists : Str → Bool

/-- The supported version list of the source. -/
def VERSIONS : List Str :=
  ["6.5".data, "7.0".data, "8.0".data, "9.0".data, "10.5".data, "12.5".data]

/-- main from the source, reduced to its return value and its warning
accumulation: status 2 on a wrong argument count, otherwise 0 after
scanning the versions (a missing mirror version is skipped silently, a
missing sources version is skipped with a warning). -/
def main_exit (argv : List Str) (w : MainWorld) : Nat × List Str :=
  if argv.length ≠ 4 then (2, [])
  else
    let warns := VERSIONS.foldl
      (fun acc v =>
        if ¬ w.mirrorVersionExists v then acc
        else if ¬ w.sourcesVersionExists v then
          acc ++ ["[AICodebase][WARN] Missing Sources for version ".data ++ v]
        else acc) []
    (0, warns)

/-- load_json from the source, with json.loads treated as the external
JSON collaborator: a parse function returning none on any failure.  The
file argument is none when the path does not exist, otherwise the text
read from it; read failures are absorbed by the surrounding handler and
are modelled as a parse failure. -/
def load_json (parse : Str → Option α) (emptyManifest : α)
    (file : Option Str) : α :=
  match file with
  | none => emptyManifest
  | some s =>
    match parse s with
    | some v => v
    | none => emptyManifest

/-
Fingerprint engine.  compute_pbl_fingerprint walks the PBL sources
directory through collect_object_files, which sorts the matched files
by their full posix path lower cased; each file contributes the triple
(relative path, size, mtime_ns), the triples are serialized as
path|size|mtime joined by newlines, and the utf-8 bytes of that blob
are hashed with sha256.  The directory walk is modelled as a list of
file descriptors in arbitrary walk order.
-/

structure FileEntry where
  rel : Str
  size : Nat
  mtime : Nat
deriving DecidableEq

/-- Decimal rendering of a natural number (Python str formatting of a
non-negative int). -/
def natStr (n : Nat) : Str := (Nat.repr n).data

/-- utf-8 encoding of one code point. -/
def utf8Char (c : Char) : List Nat :=
  let n := c.toNat
  if n < 128 then [n]
  else if n < 2048 then [192 + n / 64, 128 + n % 64]
  else if n < 65536 then [224 + n / 4096, 128 + n / 64 % 64, 128 + n % 64]
  else [240 + n / 262144, 128 + n / 4096 % 64, 128 + n / 64 % 64, 128 + n % 64]

/-- utf-8 encoding of a text (str.encode). -/
def utf8Encode (s : Str) : List Nat := s.flatMap utf8Char

/-- Addition modulo 2 to the 32. -/
def add32 (a b : Nat) : Nat := (a + b) % 4294967296

/-- Right rotation of a 32 bit word. -/
def rotr32 (n x : Nat) : Nat :=
  ((x >>> n) ||| ((x <<< (32 - n)) % 4294967296))

def shaCh (x y z : Nat) : Nat := (x &&& y) ^^^ ((4294967295 ^^^ x) &&& z)

def shaMaj (x y z : Nat) : Nat := (x &&& y) ^^^ (x &&& z) ^^^ (y &&& z)

def bigSig0 (x : Nat) : Nat := rotr32 2 x ^^^ rotr32 13 x ^^^ rotr32 22 x

def bigSig1 (x : Nat) : Nat := rotr32 6 x ^^^ rotr32 11 x ^^^ rotr32 25 x

def smallSig0 (x : Nat) : Nat := rotr32 7 x ^^^ rotr32 18 x ^^^ (x >>> 3)

def smallSig1 (x : Nat) : Nat := rotr32 17 x ^^^ rotr32 19 x ^^^ (x >>> 10)

/-- The sha256 round constants (FIPS 180-4), in decimal. -/
def shaK : List Nat :=
  [1116352408, 1899447441, 3049323471, 3921009573, 961987163,
   1508970993, 2453635748, 2870763221, 3624381080, 310598401,
   607225278, 1426881987, 1925078388, 2162078206, 2614888103,
   3248222580, 3835390401, 4022224774, 264347078, 604807628,
   770255983, 1249150122, 1555081692, 1996064986, 2554220882,
   2821834349, 2952996808, 3210313671, 3336571891, 3584528711,
   113926993, 338241895, 666307205, 773529912, 1294757372,
   1396182291, 1695183700, 1986661051, 2177026350, 2456956037,
   2730485921, 2820302411, 3259730800, 3345764771, 3516065817,
   3600352804, 4094571909, 275423344, 430227734, 506948616,
   659060556, 883997877, 958139571, 1322822218, 1537002063,
   1747873779, 1955562222, 2024104815, 2227730452, 2361852424,
   2428436474, 2756734187, 3204031479, 3329325298]

/-- The sha256 initial hash state, in decimal. -/
def shaH0 : List Nat :=
  [1779033703, 3144134277, 1013904242, 2773480762,
   1359893119, 2600822924, 528734635, 1541459225]

/-- Message schedule extension: the accumulator holds the schedule so
far in reverse (newest word first), the counter counts the remaining
words up to 64. -/
def shaSchedGo : List Nat → Nat → List Nat
  | rws, 0 => rws
  | rws, n + 1 =>
    let w2 := rws.getD 1 0
    let w7 := rws.getD 6 0
    let w15 := rws.getD 14 0
    let w16 := rws.getD 15 0
    let nw := (smallSig1 w2 + w7 + smallSig0 w15 + w16) % 4294967296
    shaSchedGo (nw :: rws) n

def shaSchedule (block : List Nat) : List Nat :=
  (shaSchedGo block.reverse 48).reverse

/-- One compression round. -/
def shaRound (st : List Nat) (kw : Nat × Nat) : List Nat :=
  match st with
  | [a, b, c, d, e, f, g, h] =>
    let t1 := (h + bigSig1 e + shaCh e f g + kw.1 + kw.2) % 4294967296
    let t2 := (bigSig0 a + shaMaj a b c) % 4294967296
    [(t1 + t2) % 4294967296, a, b, c, (d + t1) % 4294967296, e, f, g]
  | other => other

/-- Compression of one 16 word block into the running hash state. -/
def shaCompress (h : List Nat) (block : List Nat) : List Nat :=
  let w := shaSchedule block
  let st := (shaK.zip w).foldl shaRound h
  (h.zip st).map (fun p => add32 p.1 p.2)

/-- Big-endian split of a 64 bit length into 8 bytes. -/
def be64 (n : Nat) : List Nat :=
  [n / 72057594037927936 % 256, n / 281474976710656 % 256,
   n / 1099511627776 % 256, n / 4294967296 % 256,
   n / 16777216 % 256, n / 65536 % 256, n / 256 % 256, n % 256]

/-- sha256 padding of a byte message. -/
def shaPad (msg : List Nat) : List Nat :=
  let r := (msg.length + 1) % 64
  let zeros := (56 + 64 - r) % 64
  msg ++ 128 :: List.replicate zeros 0 ++ be64 (8 * msg.length)

/-- Packs 4 bytes big-endian into one 32 bit word, over the list. -/
def shaWords : List Nat → List Nat
  | b1 :: b2 :: b3 :: b4 :: rest =>
    (b1 * 16777216 + b2 * 65536 + b3 * 256 + b4) :: shaWords rest
  | _ => []

/-- Splits the padded bytes into 16 word blocks; the fuel is the byte
count, which bounds the number of 64 byte chunks. -/
def shaBlocksGo : Nat → List Nat → List (List Nat)
  | 0, _ => []
  | _ + 1, [] => []
  | fuel + 1, bs => shaWords (bs.take 64) :: shaBlocksGo fuel (bs.drop 64)

def shaBlocks (bs : List Nat) : List (List Nat) := shaBlocksGo bs.length bs

/-- The sha256 digest of a byte message, as 8 words. -/
def sha256Words (msg : List Nat) : List Nat :=
  (shaBlocks (shaPad msg)).foldl shaCompress shaH0

def hexDigit (n : Nat) : Char :=
  if n < 10 then Char.ofNat (48 + n) else Char.ofNat (87 + n)

/-- Lower case hex rendering of one 32 bit word as 8 digits. -/
def hex8 (n : Nat) : Str :=
  [hexDigit (n / 268435456 % 16), hexDigit (n / 16777216 % 16),
   hexDigit (n / 1048576 % 16), hexDigit (n / 65536 % 16),
   hexDigit (n / 4096 % 16), hexDigit (n / 256 % 16),
   hexDigit (n / 16 % 16), hexDigit (n % 16)]

/-- hashlib sha256 hexdigest of a byte message. -/
def sha256Hex (msg : List Nat) : Str := (sha256Words msg).flatMap hex8

/-- Aggregate record returned by compute_pbl_fingerprint. -/
structure Fingerprint where
  fingerprint : Str
  total_size : Nat
  mtime_max : Nat
  file_count : Nat
deriving DecidableEq

/-- The serialization line of one entry: rel|size|mtime. -/
def entryLine (f : FileEntry) : Str :=
  f.rel ++ '|' :: natStr f.size ++ '|' :: natStr f.mtime

/-- collect_object_files: the matched files of the walk sorted stably
by the lower cased full posix path, which is the directory path, a
slash and the relative path. -/
def collect_object_files (dir : Str) (walk : List FileEntry) : List FileEntry :=
  pySorted (fun a b =>
    lexLe (pyLower (dir ++ '/' :: a.rel)) (pyLower (dir ++ '/' :: b.rel))) walk

/-- compute_pbl_fingerprint from the source: serialize the collected
entries and digest the utf-8 bytes, together with the aggregates. -/
def compute_pbl_fingerprint (dir : Str) (walk : List FileEntry) : Fingerprint :=
  let files := collect_object_files dir walk
  let blob := pyJoinNl (files.map entryLine)
  { fingerprint := sha256Hex (utf8Encode blob)
    total_size := (files.map (fun f => f.size)).sum
    mtime_max := (files.map (fun f => f.mtime)).foldr max 0
    file_count := files.length }

/-- Modelled from the spec: the canonical serialization of section 4.4,
entries formatted as path|size|mtime, joined by newlines, sorted by the
relative path case-insensitively (stable in walk order on ties). -/
def canonicalSerialization (walk : List FileEntry) : Str :=
  pyJoinNl ((pySorted (fun a b => lexLe (pyLower a.rel) (pyLower b.rel)) walk).map
    entryLine)

/-
Spec-side helper definitions used by the theorem statements.
-/

/-- All lines a segment list stands for, in interleaved order. -/
def flatSegs (segs : List Seg) : List Str := segs.flatMap segLines

/-- Joins lines back into a text with a final newline when any line
remains, the rendering at the end of strip_member_wrappers. -/
def renderLines (ls : List Str) : Str :=
  pyJoinNl ls ++ (if ls = [] then [] else ['\n'])

/-- From the spec wording: drop trailing blank lines. -/
def dropTrailingBlankLines (ls : List Str) : List Str :=
  (ls.reverse.dropWhile allWs).reverse

/-- From the spec wording: if the new last line matches end kind, drop
it. -/
def dropClosingLine (kind : Str) (ls : List Str) : List Str :=
  match ls.getLast? with
  | some l => if endKindLine kind l then ls.dropLast else ls
  | none => ls

/-- The line list strip_member_wrappers renders, written as the stage
pipeline of the source. -/
def strip_lines (t kind : Str) : List Str :=
  popTrailBlanks (dropClosingLine kind (popTrailBlanks ((pySplitLines t).drop 1)))

/-- Modelled from the spec rule of section 4.2: drop exactly the first
line, drop trailing blank lines, drop at most one closing end-kind
line, drop trailing blank lines again, and re-join. -/
def stripSpec (t kind : Str) : Str :=
  renderLines (dropTrailingBlankLines
    (dropClosingLine kind (dropTrailingBlankLines ((pySplitLines t).drop 1))))

/-- The lines strictly between the opener at index s and the closer at
index e, exclusive on both ends (the spec wording for the fallback
extractor body). -/
def betweenLines (lines : List Str) (s e : Nat) : List Str :=
  (lines.take e).drop (s + 1)

/-- The final rendering of the recovered fallback body: trailing
newline when non-empty, the empty text otherwise. -/
def renderBody (b : Str) : Str := b ++ (if b = [] then [] else ['\n'])

/-
Theorems.  Each claim of the specification is settled below; supporting
lemmas come first.
-/

set_option maxRecDepth 8192

theorem pySplitLines_ne_nil (t : Str) : pySplitLines t ≠ [] := by
  cases t with
  | nil => simp [pySplitLines]
  | cons c cs =>
    simp only [pySplitLines]
    split
    · simp
    · match h : pySplitLines cs with
      | [] => simp
      | l :: ls => simp

theorem pyJoinNl_cons_cons (c : Char) (l : Str) (ls : List Str) :
    pyJoinNl ((c :: l) :: ls) = c :: pyJoinNl (l :: ls) := by
  cases ls <;> rfl

theorem pyJoinNl_nil_cons (l : Str) (ls : List Str) :
    pyJoinNl ([] :: l :: ls) = '\n' :: pyJoinNl (l :: ls) := rfl

theorem pyJoinNl_pySplitLines (t : Str) : pyJoinNl (pySplitLines t) = t := by
  induction t with
  | nil => rfl
  | cons c cs ih =>
    simp only [pySplitLines]
    split
    · rename_i hc
      match h : pySplitLines cs with
      | [] => exact absurd h (pySplitLines_ne_nil cs)
      | l :: ls =>
        rw [h] at ih
        rw [pyJoinNl_nil_cons, ih, hc]
    · rename_i hc
      match h : pySplitLines cs with
      | [] => exact absurd h (pySplitLines_ne_nil cs)
      | l :: ls =>
        rw [h] at ih
        rw [pyJoinNl_cons_cons, ih]

theorem popTrailBlanks_eq_rev (ls : List Str) :
    popTrailBlanks ls = (ls.reverse.dropWhile allWs).reverse := by
  induction ls with
  | nil => rfl
  | cons l ls ih =>
    simp only [popTrailBlanks, ih, List.reverse_cons, List.dropWhile_append]
    match h : ls.reverse.dropWhile allWs with
    | [] =>
      simp only [List.reverse_nil, List.isEmpty_nil, if_true, List.dropWhile_cons,
        List.dropWhile_nil]
      by_cases hl : allWs l <;> simp [hl]
    | x :: xs => simp

theorem popTrailBlanks_append_single (ls : List Str) (a : Str) :
    popTrailBlanks (ls ++ [a]) =
      if allWs a then popTrailBlanks ls else ls ++ [a] := by
  rw [popTrailBlanks_eq_rev, popTrailBlanks_eq_rev]
  rw [List.reverse_append]
  simp only [List.reverse_cons, List.reverse_nil, List.nil_append,
    List.singleton_append, List.dropWhile_cons]
  by_cases ha : allWs a
  · simp [ha]
  · simp [ha]

theorem popTrailBlanks_decomp (ls : List Str) :
    ∃ b, ls = popTrailBlanks ls ++ b ∧ b.all allWs = true := by
  induction ls using List.reverseRecOn with
  | nil => exact ⟨[], rfl, rfl⟩
  | append_singleton ls a ih =>
    rw [popTrailBlanks_append_single]
    by_cases ha : allWs a
    · obtain ⟨b, hb, hall⟩ := ih
      refine ⟨b ++ [a], ?_, ?_⟩
      · simp only [ha, if_true]
        rw [← List.append_assoc, ← hb]
      · simp [hall, ha]
    · exact ⟨[], by simp [ha], rfl⟩

theorem popTrailBlanks_last (ls : List Str) :
    (popTrailBlanks ls).getLast?.all (fun l => !allWs l) = true := by
  induction ls using List.reverseRecOn with
  | nil => rfl
  | append_singleton ls a ih =>
    rw [popTrailBlanks_append_single]
    by_cases ha : allWs a
    · simpa [ha] using ih
    · simp [ha, List.getLast?_append]

theorem popTrailBlanks_of_last (ls : List Str)
    (h : ls.getLast?.all (fun l => !allWs l) = true) : popTrailBlanks ls = ls := by
  induction ls using List.reverseRecOn with
  | nil => rfl
  | append_singleton ls a ih =>
    rw [popTrailBlanks_append_single]
    have ha : allWs a = false := by
      simpa [List.getLast?_append] using h
    simp [ha]

theorem popTrailBlanks_idem (ls : List Str) :
    popTrailBlanks (popTrailBlanks ls) = popTrailBlanks ls :=
  popTrailBlanks_of_last _ (popTrailBlanks_last ls)

theorem dropClosingLine_of_no_end (kind : Str) (ls : List Str)
    (h : ls.getLast?.all (fun l => !endKindLine kind l) = true) :
    dropClosingLine kind ls = ls := by
  unfold dropClosingLine
  match hL : ls.getLast? with
  | none => rfl
  | some l =>
    have he : endKindLine kind l = false := by simpa [hL] using h
    simp [he]

theorem strip_eq_pipeline (t kind : Str) :
    strip_member_wrappers t kind = renderLines (strip_lines t kind) := rfl

theorem dropClosingLine_decomp (kind : Str) (ls : List Str) :
    ∃ clos, ls = dropClosingLine kind ls ++ clos ∧
      (clos = [] ∨ ∃ l, clos = [l] ∧ endKindLine kind l = true) := by
  unfold dropClosingLine
  match hL : ls.getLast? with
  | none => exact ⟨[], by simp, Or.inl rfl⟩
  | some l =>
    by_cases he : endKindLine kind l
    · obtain ⟨l2, hl2⟩ := List.getLast?_eq_some_iff.mp hL
      refine ⟨[l], ?_, Or.inr ⟨l, rfl, he⟩⟩
      simp only [he, if_true]
      rw [hl2]
      simp
    · exact ⟨[], by simp [he], Or.inl rfl⟩

/-- C4 (amended): strip_member_wrappers is not idempotent, because the
first line is removed unconditionally.  On any text whose last line
after dropping the first line and trailing blanks does not match the
closing end-kind pattern, the function removes exactly the first line
and trailing blank lines and nothing else: the result is the rendering
of the remaining lines. -/
theorem strip_second_application (t kind : Str)
    (h : (popTrailBlanks ((pySplitLines t).drop 1)).getLast?.all
      (fun l => !endKindLine kind l) = true) :
    strip_member_wrappers t kind =
      renderLines (popTrailBlanks ((pySplitLines t).drop 1)) := by
  rw [strip_eq_pipeline]
  unfold strip_lines
  rw [dropClosingLine_of_no_end _ _ h, popTrailBlanks_idem]

theorem strip_second_application_witness :
    strip_member_wrappers "abc\ndef\n".data "function".data =
      renderLines (popTrailBlanks ((pySplitLines "abc\ndef\n".data).drop 1)) :=
  strip_second_application _ _ (by decide)

/-- C4 counterexample: the already-stripped body consisting of the line
with two leading spaces and the word return (the stripped body of the
C8 scenario) has a first line that is not a declaration and a last line
that does not match end function, yet a second application of
strip_member_wrappers does not leave it unchanged: it removes the first
line and returns the empty text. -/
theorem strip_not_idempotent_cex :
    lineMemberStart "  return".data = none ∧
    endKindLine "function".data [] = false ∧
    strip_member_wrappers "  return\n".data "function".data = [] ∧
    strip_member_wrappers "  return\n".data "function".data ≠
      "  return\n".data := by decide

/-- C5: strip_member_wrappers drops exactly the first line, then
trailing blank lines, then at most one closing end-kind line (the kind
fixed to the member kind, matched case-insensitively), then trailing
blank lines again.  Stated as: the result equals the spec-side staged
pipeline; the dropped lines decompose as blanks, at most one matching
closing line, and blanks; and the surviving lines end at the last
non-blank line. -/
theorem strip_wrappers_spec (t kind : Str) :
    strip_member_wrappers t kind = stripSpec t kind ∧
    (∃ mid clos trail, (pySplitLines t).drop 1 =
        strip_lines t kind ++ mid ++ clos ++ trail ∧
      mid.all allWs = true ∧ trail.all allWs = true ∧
      (clos = [] ∨ ∃ l, clos = [l] ∧ endKindLine kind l = true)) ∧
    (strip_lines t kind).getLast?.all (fun l => !allWs l) = true := by
  refine ⟨?_, ?_, popTrailBlanks_last _⟩
  · rw [strip_eq_pipeline]
    unfold strip_lines stripSpec dropTrailingBlankLines
    rw [← popTrailBlanks_eq_rev, ← popTrailBlanks_eq_rev]
  · obtain ⟨trail, htr, htrall⟩ :=
      popTrailBlanks_decomp ((pySplitLines t).drop 1)
    obtain ⟨clos, hcl, hclP⟩ :=
      dropClosingLine_decomp kind (popTrailBlanks ((pySplitLines t).drop 1))
    obtain ⟨mid, hm, hmall⟩ := popTrailBlanks_decomp
      (dropClosingLine kind (popTrailBlanks ((pySplitLines t).drop 1)))
    refine ⟨mid, clos, trail, ?_, hmall, htrall, hclP⟩
    calc (pySplitLines t).drop 1
        = popTrailBlanks ((pySplitLines t).drop 1) ++ trail := htr
      _ = (dropClosingLine kind (popTrailBlanks ((pySplitLines t).drop 1)) ++
            clos) ++ trail := by rw [← hcl]
      _ = ((popTrailBlanks (dropClosingLine kind
            (popTrailBlanks ((pySplitLines t).drop 1))) ++ mid) ++ clos) ++
            trail := by rw [← hm]
      _ = strip_lines t kind ++ mid ++ clos ++ trail := by
            simp [strip_lines, List.append_assoc]

/-- C8: the scenario object text consisting of the declaration line of
of_test, an indented return line and the closing end function line
splits into an empty header and exactly one member block named
function_of_test (artifact file function_of_test.txt), and stripping
that block with kind function yields exactly the indented return line
with a trailing newline. -/
theorem scenario_of_test :
    normalize_member_name "function".data "void of_test(integer a)".data =
      "function_of_test".data ∧
    split_object_members
        "function void of_test(integer a)\n  return\nend function".data =
      ([], [("function_of_test.txt".data,
        "function void of_test(integer a)\n  return\nend function\n".data)]) ∧
    strip_member_wrappers
        "function void of_test(integer a)\n  return\nend function\n".data
        "function".data = "  return\n".data := by decide

/-- C2 failing input: an object cache directory left over from a run
that produced the member artifact function_f.txt, rebuilt for an object
text with zero detected members (the single line hello).  The fallback
artifact object.txt is written, but the stale member artifact is not
removed, so both modes coexist, contradicting the exactly-one
invariant; the opposite switch (fallback to members) does remove the
stale object.txt. -/
theorem build_cache_stale_member_artifact :
    (split_object_members "hello".data).2 = [] ∧
    fsHas (buildObjectCache [("function_f.txt".data, "old\n".data)]
      "hello".data) "object.txt".data = true ∧
    fsHas (buildObjectCache [("function_f.txt".data, "old\n".data)]
      "hello".data) "function_f.txt".data = true ∧
    fsHas (buildObjectCache [("object.txt".data, "old".data)]
      "function f a\nbody\nend function".data) "object.txt".data = false := by
  decide

/-- C3 (amended): main returns a non-zero status (2) exactly when the
argument count is wrong; with four arguments it returns 0 regardless of
which mirror or sources directories exist, so absent root directories
and a run that discovers no groups both terminate with status 0. -/
theorem main_exit_usage_only (argv : List Str) (w : MainWorld) :
    ((main_exit argv w).1 = 2 ↔ argv.length ≠ 4) ∧
    ((main_exit argv w).1 = 0 ↔ argv.length = 4) := by
  unfold main_exit
  by_cases h : argv.length = 4
  · simp [h]
  · simp [h]

/-- C3 counterexample: with four arguments and a world in which no
mirror version and no sources version exists (absent roots, nothing to
process, no groups discovered), main returns status 0, not a non-zero
status. -/
theorem main_exit_zero_cex :
    (main_exit ["prog".data, "m".data, "s".data, "o".data]
      ⟨fun _ => false, fun _ => false⟩).1 = 0 := by decide

/-- C9: load_json returns the empty manifest when the file is absent or
when the JSON collaborator fails to parse its content; it is a total
function, so no error is raised or propagated. -/
theorem load_json_permissive {α : Type} (parse : Str → Option α)
    (emptyManifest : α) (file : Option Str)
    (h : file = none ∨ ∃ s, file = some s ∧ parse s = none) :
    load_json parse emptyManifest file = emptyManifest := by
  rcases h with h | ⟨s, hs, hp⟩
  · rw [h]; rfl
  · rw [hs]; simp only [load_json, hp]

theorem load_json_permissive_witness :
    load_json (fun _ => (none : Option Nat)) 0 (some "not json".data) = 0 :=
  load_json_permissive _ _ _ (Or.inr ⟨"not json".data, rfl, rfl⟩)

/-- C10: normalize_member_name is total by construction; with no
identifier token in the signature the result is the sanitized form of
kind underscore unknown, and for kind function with exactly one token
that token is used rather than unknown. -/
theorem normalize_member_name_total (kind sig : Str) :
    (findIdents sig = [] →
      normalize_member_name kind sig =
        sanitize (pyLower kind ++ '_' :: "unknown".data)) ∧
    (pyLower kind = "function".data → ∀ tok, findIdents sig = [tok] →
      normalize_member_name kind sig =
        sanitize (pyLower kind ++ '_' :: tok)) := by
  constructor
  · intro h
    unfold normalize_member_name
    rw [h]
    by_cases hk : pyLower kind = "function".data <;> simp [hk]
  · intro hk tok h
    unfold normalize_member_name
    rw [h, hk]
    simp

theorem normalize_member_name_total_witness :
    normalize_member_name "Event".data "123 456".data =
      sanitize (pyLower "Event".data ++ '_' :: "unknown".data) ∧
    normalize_member_name "function".data "solo".data =
      sanitize (pyLower "function".data ++ '_' :: "solo".data) :=
  ⟨(normalize_member_name_total _ _).1 (by decide),
   (normalize_member_name_total _ _).2 (by decide) _ (by decide)⟩

theorem flatSegs_cons (s : Seg) (S : List Seg) :
    flatSegs (s :: S) = segLines s ++ flatSegs S := by
  simp [flatSegs]

theorem hdrsOf_cons_hdr (l : Str) (S : List Seg) :
    hdrsOf (Seg.hdr l :: S) = l :: hdrsOf S := by simp [hdrsOf]

theorem hdrsOf_cons_mem (b : List Str) (S : List Seg) :
    hdrsOf (Seg.mem b :: S) = hdrsOf S := by simp [hdrsOf]

theorem memsOf_cons_hdr (l : Str) (S : List Seg) :
    memsOf (Seg.hdr l :: S) = memsOf S := by simp [memsOf]

theorem memsOf_cons_mem (b : List Str) (S : List Seg) :
    memsOf (Seg.mem b :: S) = b :: memsOf S := by simp [memsOf]

theorem splitSegGo_flat (ls : List Str) : ∀ (inM : Bool) (buf : List Str),
    (inM = false → buf = []) →
    flatSegs (splitSegGo ls inM buf) = buf ++ ls := by
  induction ls with
  | nil =>
    intro inM buf hinv
    cases inM with
    | false => simp [hinv rfl, splitSegGo, flatSegs]
    | true =>
      by_cases hb : buf = []
      · simp [hb, splitSegGo, flatSegs]
      · simp [splitSegGo, hb, flatSegs, segLines]
  | cons line rest ih =>
    intro inM buf hinv
    cases inM with
    | true =>
      by_cases hE : (lineMemberEnd line).isSome
      · have h := ih false [] (fun _ => rfl)
        simp [splitSegGo, hE, flatSegs_cons, segLines, h]
      · have h := ih true (buf ++ [line]) (by simp)
        simp [splitSegGo, hE, h]
    | false =>
      have hb := hinv rfl
      subst hb
      rcases hS : lineMemberStart line with _ | kg
      · have h := ih false [] (fun _ => rfl)
        simp [splitSegGo, hS, flatSegs_cons, segLines, h]
      · have h := ih true [line] (by simp)
        simp [splitSegGo, hS, h]

theorem splitGo_corr (ls : List Str) :
    ∀ (inM : Bool) (k s : Str) (buf pre hdr : List Str)
      (mems : List (Str × Str × List Str)),
    (splitGo ls inM k s buf pre hdr mems).1 =
      hdr ++ pre ++ hdrsOf (splitSegGo ls inM buf) ∧
    (splitGo ls inM k s buf pre hdr mems).2.map (fun m => m.2.2) =
      mems.map (fun m => m.2.2) ++ memsOf (splitSegGo ls inM buf) := by
  induction ls with
  | nil =>
    intro inM k s buf pre hdr mems
    cases inM with
    | false => simp [splitGo, splitSegGo, hdrsOf, memsOf]
    | true =>
      by_cases hb : buf = []
      · simp [splitGo, splitSegGo, hb, hdrsOf, memsOf]
      · simp [splitGo, splitSegGo, hb, hdrsOf, memsOf]
  | cons line rest ih =>
    intro inM k s buf pre hdr mems
    cases inM with
    | true =>
      by_cases hE : (lineMemberEnd line).isSome
      · obtain ⟨h1, h2⟩ := ih false [] [] [] pre hdr
          (mems ++ [(k, s, buf ++ [line])])
        simp only [splitGo, splitSegGo, hE, if_true]
        constructor
        · simp [h1, hdrsOf_cons_mem]
        · simp [h2, memsOf_cons_mem]
      · obtain ⟨h1, h2⟩ := ih true k s (buf ++ [line]) pre hdr mems
        simp only [splitGo, splitSegGo, hE]
        constructor
        · simp [h1]
        · simp [h2]
    | false =>
      rcases hS : lineMemberStart line with _ | kg
      · obtain ⟨h1, h2⟩ := ih false k s buf (pre ++ [line]) hdr mems
        simp only [splitGo, splitSegGo, hS]
        constructor
        · simp [h1, hdrsOf_cons_hdr]
        · simp [h2, memsOf_cons_hdr]
      · obtain ⟨h1, h2⟩ := ih true kg.1 (pyStrip kg.2) [line] [] (hdr ++ pre) mems
        simp only [splitGo, splitSegGo, hS]
        constructor
        · simp [h1]
        · simp [h2]

/-- C1 (amended): the scanning state machine of split_object_members
partitions the input lines exactly: concatenating its interleaved
header-line and member-buffer segments in original order reproduces the
split line sequence, and joining those lines reproduces the input text
(a member still open at end of file is flushed and counted).  However,
the function renders each output block through str.strip, so the header
text is the stripped join of the header lines (plus a newline when
non-empty) and each member text is the stripped join of its buffer plus
a newline: the rendered texts reproduce the input only up to that
per-block surrounding-whitespace trimming. -/
theorem split_object_members_interleave (content : Str) :
    flatSegs (splitSegs content) = pySplitLines content ∧
    pyJoinNl (flatSegs (splitSegs content)) = content ∧
    (split_object_members content).1 =
      (if pyStrip (pyJoinNl (hdrsOf (splitSegs content))) = [] then []
       else pyStrip (pyJoinNl (hdrsOf (splitSegs content))) ++ ['\n']) ∧
    (split_object_members content).2.map Prod.snd =
      (memsOf (splitSegs content)).map (fun b => pyStrip (pyJoinNl b) ++ ['\n']) := by
  have hFlat := splitSegGo_flat (pySplitLines content) false [] (fun _ => rfl)
  have h1 : flatSegs (splitSegs content) = pySplitLines content := by
    simpa [splitSegs] using hFlat
  have hC := splitGo_corr (pySplitLines content) false [] [] [] [] [] []
  refine ⟨h1, by rw [h1]; exact pyJoinNl_pySplitLines content, ?_, ?_⟩
  · simp only [split_object_members, splitSegs]
    rw [hC.1]
    simp only [List.nil_append]
    split <;> simp_all
  · simp only [split_object_members, splitSegs]
    have h2 := congrArg (List.map (fun b => pyStrip (pyJoinNl b) ++ ['\n'])) hC.2
    simp only [List.map_map, List.nil_append] at h2
    simpa [renderMember, Function.comp] using h2

/-- C1 counterexample: for the object text whose first line is the
declaration preceded by one space, the splitter strips that leading
space when rendering the member text, so the first input line occurs in
no output block (header or member): no re-joining of the output lines
in any order can reproduce the input line-for-line. -/
theorem split_line_dropped_cex :
    pySplitLines " function f a\nend function".data =
      [" function f a".data, "end function".data] ∧
    split_object_members " function f a\nend function".data =
      ([], [("function_a.txt".data, "function f a\nend function\n".data)]) ∧
    " function f a".data ∉ pySplitLines ([] : Str) ∧
    " function f a".data ∉ pySplitLines "function f a\nend function\n".data := by
  decide

theorem lastEndInfo_lt (ls : List Str) (e : Nat) (k : Str)
    (h : lastEndInfo ls = some (e, k)) : e < ls.length := by
  induction ls generalizing e k with
  | nil => simp [lastEndInfo] at h
  | cons l rest ih =>
    simp only [lastEndInfo] at h
    match hr : lastEndInfo rest with
    | some ik =>
      rw [hr] at h
      simp only [Option.some.injEq, Prod.mk.injEq] at h
      have := ih ik.1 ik.2 (by rw [hr])
      simp only [List.length_cons]
      omega
    | none =>
      rw [hr] at h
      match he : lineMemberEnd l with
      | some k3 =>
        rw [he] at h
        simp only [Option.some.injEq, Prod.mk.injEq] at h
        simp [← h.1]
      | none => rw [he] at h; simp at h

theorem lastStartIdx_lt (kind : Str) (ls : List Str) (s : Nat)
    (h : lastStartIdx kind ls = some s) : s < ls.length := by
  induction ls generalizing s with
  | nil => simp [lastStartIdx] at h
  | cons l rest ih =>
    simp only [lastStartIdx] at h
    match hr : lastStartIdx kind rest with
    | some i =>
      rw [hr] at h
      simp only [Option.some.injEq] at h
      have := ih i (by rw [hr])
      simp only [List.length_cons]
      omega
    | none =>
      rw [hr] at h
      by_cases hf : fallbackStartLine kind l
      · simp only [hf, if_true, Option.some.injEq] at h
        simp [← h]
      · simp [hf] at h

theorem slice_between (L : List Str) (s e : Nat) (hse : s < e)
    (heL : e < L.length) :
    (((L.drop s).take (e + 1 - s)).drop 1).dropLast = (L.take e).drop (s + 1) := by
  rw [List.drop_take (e + 1 - s) 1 (L.drop s), List.drop_drop 1 s L]
  have h1 : e + 1 - s - 1 = e - s := by omega
  rw [h1, List.dropLast_eq_take, List.length_take, List.length_drop]
  have h2 : min (e - s) (L.length - (s + 1)) = e - s := by omega
  rw [h2, List.take_take]
  have h3 : min (e - s - 1) (e - s) = e - s - 1 := by omega
  rw [h3, List.drop_take e (s + 1) L]
  have h4 : e - (s + 1) = e - s - 1 := by omega
  rw [h4]

/-- C7 (amended): extract_single_member_body_if_any scans backward for
the last end line and reports no extraction when none exists; from it
it scans backward for the nearest start line of the same kind (global
also permitted) and reports no extraction when none exists above the
closer; otherwise the recovered body is the text of the lines strictly
between opener and closer (exclusive both ends) with surrounding
whitespace stripped by str.strip, plus a trailing newline when
non-empty (an all-blank interior yields the empty text, still reported
as an extraction).  The under-two-lines guard of the source can never
fire, since the opener index is strictly below the closer index. -/
theorem extract_single_member_contract (content : Str) :
    (lastEndInfo (pySplitLines content) = none →
      extract_single_member_body_if_any content = none) ∧
    (∀ e k, lastEndInfo (pySplitLines content) = some (e, k) →
      (lastStartIdx k ((pySplitLines content).take e) = none →
        extract_single_member_body_if_any content = none) ∧
      (∀ s, lastStartIdx k ((pySplitLines content).take e) = some s →
        extract_single_member_body_if_any content =
          some (renderBody (pyStrip (pyJoinNl
            (betweenLines (pySplitLines content) s e)))))) := by
  constructor
  · intro h
    simp only [extract_single_member_body_if_any, h]
  · intro e k hek
    constructor
    · intro hs
      simp only [extract_single_member_body_if_any, hek, hs]
    · intro s hs
      have he := lastEndInfo_lt _ _ _ hek
      have hsb := lastStartIdx_lt _ _ _ hs
      have hse : s < e := by
        rw [List.length_take] at hsb; omega
      have hlen : ¬ ((((pySplitLines content).drop s).take (e + 1 - s)).length < 2) := by
        rw [List.length_take, List.length_drop]; omega
      simp only [extract_single_member_body_if_any, hek, hs, hlen, if_false]
      rw [slice_between _ _ _ hse he]
      rfl

theorem extract_single_member_contract_witness :
    extract_single_member_body_if_any
        "function f x\n  return\nend function".data =
      some (renderBody (pyStrip (pyJoinNl (betweenLines
        (pySplitLines "function f x\n  return\nend function".data) 0 2)))) :=
  ((extract_single_member_contract _).2 2 "function".data (by decide)).2 0
    (by decide)

/-- C7 counterexample: the recovered body is not exactly the lines
strictly between opener and closer.  For the object text with an
interior line of two leading spaces and the word return, the lines
strictly between are that indented line, but the function returns the
stripped text return with a trailing newline. -/
theorem extract_body_not_exact_cex :
    extract_single_member_body_if_any
        "function f x\n  return\nend function".data = some "return\n".data ∧
    betweenLines (pySplitLines "function f x\n  return\nend function".data)
        0 2 = ["  return".data] ∧
    some "return\n".data ≠ some ("  return".data : Str) ∧
    some "return\n".data ≠ some "  return\n".data := by decide

theorem charToNat_inj (a b : Char) (h : a.toNat = b.toNat) : a = b := by
  apply Char.ext
  exact UInt32.ext h

theorem lexLe_append_same (p : Str) : ∀ a b : Str,
    lexLe (p ++ a) (p ++ b) = lexLe a b := by
  induction p with
  | nil => intro a b; rfl
  | cons c cs ih =>
    intro a b
    simp only [List.cons_append, lexLe]
    have : ¬ c.toNat < c.toNat := Nat.lt_irrefl _
    simp only [this, if_false]
    exact ih a b

theorem pyLower_append (x y : Str) : pyLower (x ++ y) = pyLower x ++ pyLower y :=
  List.map_append lowC x y

theorem lexLe_total (a : Str) : ∀ b : Str, lexLe a b = true ∨ lexLe b a = true := by
  induction a with
  | nil => intro b; left; rfl
  | cons c cs ih =>
    intro b
    cases b with
    | nil => right; rfl
    | cons d ds =>
      simp only [lexLe]
      by_cases h1 : c.toNat < d.toNat
      · left; simp [h1]
      · by_cases h2 : d.toNat < c.toNat
        · right; simp [h2, h1]
        · simp only [h1, h2, if_false]
          exact ih ds

theorem lexLe_trans (a : Str) : ∀ b c : Str,
    lexLe a b = true → lexLe b c = true → lexLe a c = true := by
  induction a with
  | nil => intro b c _ _; rfl
  | cons x xs ih =>
    intro b c hab hbc
    cases b with
    | nil => simp [lexLe] at hab
    | cons y ys =>
      cases c with
      | nil => simp [lexLe] at hbc
      | cons z zs =>
        simp only [lexLe] at hab hbc ⊢
        by_cases h1 : x.toNat < y.toNat
        · by_cases h2 : y.toNat < z.toNat
          · have : x.toNat < z.toNat := Nat.lt_trans h1 h2
            simp [this]
          · by_cases h3 : z.toNat < y.toNat
            · simp [h2, h3] at hbc
            · have : y.toNat = z.toNat := by omega
              have hx : x.toNat < z.toNat := by omega
              simp [hx]
        · by_cases h1b : y.toNat < x.toNat
          · simp [h1, h1b] at hab
          · have hxy : x.toNat = y.toNat := by omega
            by_cases h2 : y.toNat < z.toNat
            · have : x.toNat < z.toNat := by omega
              simp [this]
            · by_cases h3 : z.toNat < y.toNat
              · simp [h2, h3] at hbc
              · have h4 : ¬ x.toNat < z.toNat := by omega
                have h5 : ¬ z.toNat < x.toNat := by omega
                simp only [h1, h1b, if_false] at hab
                simp only [h2, h3, if_false] at hbc
                simp only [h4, h5, if_false]
                exact ih ys zs hab hbc

theorem lexLe_antisymm (a : Str) : ∀ b : Str,
    lexLe a b = true → lexLe b a = true → a = b := by
  induction a with
  | nil =>
    intro b hab hba
    cases b with
    | nil => rfl
    | cons d ds => simp [lexLe] at hba
  | cons c cs ih =>
    intro b hab hba
    cases b with
    | nil => simp [lexLe] at hab
    | cons d ds =>
      simp only [lexLe] at hab hba
      by_cases h1 : c.toNat < d.toNat
      · have h2 : ¬ d.toNat < c.toNat := by omega
        simp [h1, h2] at hba
      · by_cases h2 : d.toNat < c.toNat
        · simp [h1, h2] at hab
        · have hcd : c = d := charToNat_inj _ _ (by omega)
          simp only [h1, h2, if_false] at hab hba
          rw [hcd, ih ds hab hba]

theorem pyInsert_perm {α : Type} (le : α → α → Bool) (a : α) :
    ∀ l : List α, (pyInsert le a l).Perm (a :: l) := by
  intro l
  induction l with
  | nil => exact List.Perm.refl _
  | cons b bs ih =>
    simp only [pyInsert]
    by_cases h : le a b = true
    · rw [if_pos h]
    · rw [if_neg h]
      exact (ih.cons b).trans (List.Perm.swap a b bs)

theorem pySorted_perm {α : Type} (le : α → α → Bool) :
    ∀ l : List α, (pySorted le l).Perm l := by
  intro l
  induction l with
  | nil => exact List.Perm.refl _
  | cons a as ih =>
    exact (pyInsert_perm le a (pySorted le as)).trans (ih.cons a)

theorem pyInsert_pairwise {α : Type} (le : α → α → Bool)
    (total : ∀ a b : α, le a b = true ∨ le b a = true)
    (htrans : ∀ a b c : α, le a b = true → le b c = true → le a c = true)
    (a : α) : ∀ l : List α, l.Pairwise (fun x y => le x y = true) →
    (pyInsert le a l).Pairwise (fun x y => le x y = true) := by
  intro l
  induction l with
  | nil => intro _; simp [pyInsert]
  | cons b bs ih =>
    intro hp
    rw [List.pairwise_cons] at hp
    obtain ⟨hb, hbs⟩ := hp
    simp only [pyInsert]
    by_cases h : le a b = true
    · rw [if_pos h, List.pairwise_cons]
      refine ⟨?_, by rw [List.pairwise_cons]; exact ⟨hb, hbs⟩⟩
      intro x hx
      rcases List.mem_cons.mp hx with heq | hx2
      · subst heq; exact h
      · exact htrans a b x h (hb x hx2)
    · rw [if_neg h, List.pairwise_cons]
      refine ⟨?_, ih hbs⟩
      intro x hx
      have hx3 := (pyInsert_perm le a bs).mem_iff.mp hx
      rcases List.mem_cons.mp hx3 with heq | hx4
      · subst heq
        rcases total x b with h1 | h1
        · exact absurd h1 h
        · exact h1
      · exact hb x hx4

theorem pySorted_pairwise {α : Type} (le : α → α → Bool)
    (total : ∀ a b : α, le a b = true ∨ le b a = true)
    (htrans : ∀ a b c : α, le a b = true → le b c = true → le a c = true) :
    ∀ l : List α, (pySorted le l).Pairwise (fun x y => le x y = true) := by
  intro l
  induction l with
  | nil => simp [pySorted]
  | cons a as ih => exact pyInsert_pairwise le total htrans a _ ih

theorem pairwiseSortedUniq {α : Type} {S : α → α → Prop}
    (asym : ∀ a b : α, S a b → S b a → False) :
    ∀ l₁ l₂ : List α, l₁.Pairwise S → l₂.Pairwise S → l₁.Perm l₂ → l₁ = l₂ := by
  intro l₁
  induction l₁ with
  | nil =>
    intro l₂ _ _ hp
    exact hp.nil_eq
  | cons a t₁ ih =>
    intro l₂ h₁ h₂ hp
    cases l₂ with
    | nil => exact absurd hp.symm.nil_eq (by simp)
    | cons b t₂ =>
      rw [List.pairwise_cons] at h₁ h₂
      have hab : a = b := by
        by_contra hne
        have ha2 : a ∈ b :: t₂ := hp.mem_iff.mp (List.mem_cons_self a t₁)
        have hb1 : b ∈ a :: t₁ := hp.symm.mem_iff.mp (List.mem_cons_self b t₂)
        have ha3 : a ∈ t₂ := by
          rcases List.mem_cons.mp ha2 with h | h
          · exact absurd h hne
          · exact h
        have hb3 : b ∈ t₁ := by
          rcases List.mem_cons.mp hb1 with h | h
          · exact absurd h.symm hne
          · exact h
        exact asym a b (h₁.1 b hb3) (h₂.1 a ha3)
      subst hab
      have hpt : t₁.Perm t₂ := hp.cons_inv
      rw [ih t₂ h₁.2 h₂.2 hpt]

theorem collect_eq_rel (dir : Str) (walk : List FileEntry) :
    collect_object_files dir walk =
      pySorted (fun a b => lexLe (pyLower a.rel) (pyLower b.rel)) walk := by
  unfold collect_object_files
  congr 1
  funext a b
  have h : ∀ r : Str, pyLower (dir ++ '/' :: r) =
      (pyLower dir ++ ['/']) ++ pyLower r := by
    intro r
    have hx : dir ++ '/' :: r = dir ++ ['/'] ++ r := by simp
    rw [hx, pyLower_append, pyLower_append,
      show pyLower ['/'] = ['/'] from by decide]
  rw [h a.rel, h b.rel, lexLe_append_same]

theorem relSort_perm_eq (walk walk2 : List FileEntry)
    (hpw : walk.Pairwise (fun a b => pyLower a.rel ≠ pyLower b.rel))
    (hperm : walk2.Perm walk) :
    pySorted (fun a b => lexLe (pyLower a.rel) (pyLower b.rel)) walk2 =
      pySorted (fun a b => lexLe (pyLower a.rel) (pyLower b.rel)) walk := by
  have total : ∀ a b : FileEntry,
      lexLe (pyLower a.rel) (pyLower b.rel) = true ∨
      lexLe (pyLower b.rel) (pyLower a.rel) = true :=
    fun a b => lexLe_total _ _
  have htrans : ∀ a b c : FileEntry,
      lexLe (pyLower a.rel) (pyLower b.rel) = true →
      lexLe (pyLower b.rel) (pyLower c.rel) = true →
      lexLe (pyLower a.rel) (pyLower c.rel) = true :=
    fun a b c hab hbc => lexLe_trans _ _ _ hab hbc
  have hsym : ∀ {x y : FileEntry}, pyLower x.rel ≠ pyLower y.rel →
      pyLower y.rel ≠ pyLower x.rel :=
    fun h hba => h hba.symm
  have hs1 := pySorted_pairwise _ total htrans walk
  have hs2 := pySorted_pairwise _ total htrans walk2
  have hNe1 : (pySorted (fun a b => lexLe (pyLower a.rel) (pyLower b.rel))
      walk).Pairwise (fun a b => pyLower a.rel ≠ pyLower b.rel) :=
    (List.Perm.pairwise_iff hsym (pySorted_perm _ walk).symm).mp hpw
  have hpw2 : walk2.Pairwise (fun a b => pyLower a.rel ≠ pyLower b.rel) :=
    (List.Perm.pairwise_iff hsym hperm.symm).mp hpw
  have hNe2 : (pySorted (fun a b => lexLe (pyLower a.rel) (pyLower b.rel))
      walk2).Pairwise (fun a b => pyLower a.rel ≠ pyLower b.rel) :=
    (List.Perm.pairwise_iff hsym (pySorted_perm _ walk2).symm).mp hpw2
  have asym : ∀ a b : FileEntry,
      (lexLe (pyLower a.rel) (pyLower b.rel) = true ∧
        pyLower a.rel ≠ pyLower b.rel) →
      (lexLe (pyLower b.rel) (pyLower a.rel) = true ∧
        pyLower b.rel ≠ pyLower a.rel) → False :=
    fun a b h1 h2 => h1.2 (lexLe_antisymm _ _ h1.1 h2.1)
  refine pairwiseSortedUniq asym _ _ (hs2.and hNe2) (hs1.and hNe1) ?_
  exact ((pySorted_perm _ walk2).trans hperm).trans (pySorted_perm _ walk).symm

/-- C6 (amended): the fingerprint digest is the sha256 of the canonical
serialization (entries rel|size|mtime joined by newlines, stably sorted
by the relative path case-insensitively); sorting by the lower cased
full path, as the code does, coincides with sorting by the lower cased
relative path because the directory prefix is shared.  The fingerprint
is invariant under every permutation of the walk order provided no two
relative paths are equal case-insensitively; when two distinct paths
collide case-insensitively, the stable sort preserves their walk order
and the digest can depend on it. -/
theorem compute_pbl_fingerprint_canonical (dir : Str) (walk : List FileEntry) :
    (compute_pbl_fingerprint dir walk).fingerprint =
      sha256Hex (utf8Encode (canonicalSerialization walk)) ∧
    (walk.Pairwise (fun a b => pyLower a.rel ≠ pyLower b.rel) →
      ∀ walk2 : List FileEntry, walk2.Perm walk →
        compute_pbl_fingerprint dir walk2 = compute_pbl_fingerprint dir walk) := by
  constructor
  · simp only [compute_pbl_fingerprint, canonicalSerialization]
    rw [collect_eq_rel]
  · intro hpw walk2 hperm
    simp only [compute_pbl_fingerprint]
    rw [collect_eq_rel, collect_eq_rel, relSort_perm_eq walk walk2 hpw hperm]

theorem compute_pbl_fingerprint_canonical_witness :
    compute_pbl_fingerprint "d".data
        [⟨"b.srd".data, 3, 4⟩, ⟨"a.srd".data, 1, 2⟩] =
      compute_pbl_fingerprint "d".data
        [⟨"a.srd".data, 1, 2⟩, ⟨"b.srd".data, 3, 4⟩] :=
  (compute_pbl_fingerprint_canonical "d".data
      [⟨"a.srd".data, 1, 2⟩, ⟨"b.srd".data, 3, 4⟩]).2 (by decide) _ (by decide)

/-- C6 counterexample: two distinct relative paths that are equal
case-insensitively (upper case A and lower case a with the same size
and mtime).  The two walk orders are permutations of the same file set,
yet the computed fingerprints differ, because the stable sort keys are
tied and preserve walk order, producing different serializations and
different sha256 digests. -/
theorem fingerprint_perm_cex :
    ([⟨"a".data, 1, 1⟩, ⟨"A".data, 1, 1⟩] : List FileEntry).Perm
      [⟨"A".data, 1, 1⟩, ⟨"a".data, 1, 1⟩] ∧
    compute_pbl_fingerprint "d".data [⟨"a".data, 1, 1⟩, ⟨"A".data, 1, 1⟩] ≠
      compute_pbl_fingerprint "d".data [⟨"A".data, 1, 1⟩, ⟨"a".data, 1, 1⟩] := by
  constructor
  · exact List.Perm.swap _ _ _
  · decide
